import Mathlib

/-!
Verification of the execution-trace reconstruction and slot-assignment engine
of the gantt-plot scripts (`plot_gantt_bytask.py` / `plot_gantt_multiexec.py`).

The two scripts share the same algorithmic core; this file embeds that core:
parsing-time pool-weight check, event construction, stable sort by timestamp,
sweep-line capacity inference, greedy first-fit slot assignment (including the
script's `found`-flag behaviour, which is never reset between instances), and
the final time-axis rebase plus display sorts.  Timestamps are embedded as
integers; `POOL_ALIAS` is outside configuration and is a parameter.
-/

/-- One task-instance record after JSON parsing.  `duration` is the separate
`ti['duration']` field of the record; the scripts use it (not `end_date`) to
compute `t_end`. -/
structure TaskInstance where
  task_id : String
  map_index : Int
  pool : String
  pool_slots : Int
  start_date : Int
  end_date : Int
  duration : Int
deriving DecidableEq, Repr

/-- Event kind: the third component of the tuples appended to `dates`. -/
inductive EvKind
  | start
  | stop
deriving DecidableEq, Repr

/-- One element of the `dates` list: `(timestamp, task_instance, kind)`. -/
structure Ev where
  time : Int
  ti : TaskInstance
  kind : EvKind
deriving DecidableEq, Repr

/-- The `dates` list before sorting: for each instance in input order, its
start event followed by its stop event. -/
def eventsOf (l : List TaskInstance) : List Ev :=
  l.foldr (fun ti acc => ⟨ti.start_date, ti, .start⟩ :: ⟨ti.end_date, ti, .stop⟩ :: acc) []

/-- Insert `x` before the first element `y` with `le x y`; together with
`insSort` this is a stable sort, matching Python's `list.sort`. -/
def ordInsert (le : α → α → Bool) (x : α) : List α → List α
  | [] => [x]
  | y :: ys => if le x y then x :: y :: ys else y :: ordInsert le x ys

/-- Stable insertion sort (same result as Python's stable `sort`). -/
def insSort (le : α → α → Bool) : List α → List α
  | [] => []
  | x :: xs => ordInsert le x (insSort le xs)

/-- Comparison used by `dates.sort(key=lambda e: e[0])`. -/
def leTime (a b : Ev) : Bool := decide (a.time ≤ b.time)

/-- `dates.sort(key=lambda e: e[0])` (stable, by timestamp only). -/
def sortEvents (es : List Ev) : List Ev := insSort leTime es

/-- The sweep state: the running counters `tmp` and the running maxima
`pool_sizes`, both `defaultdict(int)` in the scripts. -/
structure SweepSt where
  tmp : String → Int
  sizes : String → Int

/-- Signed slot-weight contribution of one event. -/
def evDelta (e : Ev) : Int :=
  match e.kind with
  | .start => e.ti.pool_slots
  | .stop => -e.ti.pool_slots

/-- One iteration of the sweep loop: update `tmp[pool]` then
`pool_sizes[pool] = max(pool_sizes[pool], tmp[pool])`. -/
def sweepStep (st : SweepSt) (e : Ev) : SweepSt :=
  { tmp := fun q => if q = e.ti.pool then st.tmp e.ti.pool + evDelta e else st.tmp q
    sizes := fun q =>
      if q = e.ti.pool then max (st.sizes q) (st.tmp e.ti.pool + evDelta e) else st.sizes q }

/-- Run the sweep loop over an event list from a given state. -/
def sweepFrom (st : SweepSt) (es : List Ev) : SweepSt := es.foldl sweepStep st

/-- Initial sweep state (`defaultdict(int)` twice). -/
def sweep0 : SweepSt := ⟨fun _ => 0, fun _ => 0⟩

/-- The capacity the scripts infer for pool `p`: the value of `pool_sizes[p]`
after sweeping the sorted event list (0 for pools with no events). -/
def inferredCapacity (l : List TaskInstance) (p : String) : Int :=
  (sweepFrom sweep0 (sortEvents (eventsOf l))).sizes p

/-- Modelled from the spec: the total `pool_slots` weight of the instances of
pool `p` whose half-open interval `[start_date, end_date)` contains time `t`. -/
def demandAt (l : List TaskInstance) (p : String) (t : Int) : Int :=
  ((l.filter fun ti =>
      decide (ti.pool = p) && decide (ti.start_date ≤ t) && decide (t < ti.end_date)).map
    fun ti => ti.pool_slots).sum

/-- Modelled from the spec: the maximum over time of `demandAt`; since the
demand only increases at start times, it suffices to scan instance start
times (the lemma `demandAt_le_specPeakDemand` makes this precise). -/
def specPeakDemand (l : List TaskInstance) (p : String) : Int :=
  l.foldr (fun ti m => max (demandAt l p ti.start_date) m) 0

/-- The availability test of the slot-scan loop:
`next_available is None or next_available <= t`. -/
def availB (o : Option Int) (t : Int) : Bool :=
  match o with
  | none => true
  | some v => decide (v ≤ t)

/-- Index of the first available slot, if any (the `break` of the scan). -/
def findAvail (ss : List (Option Int)) (t : Int) : Option Nat :=
  match ss with
  | [] => none
  | o :: rest => if availB o t then some 0 else (findAvail rest t).map (· + 1)

/-- One output row, structured: the script's dict carries
`task`, `start`, `end`, `resource = f'{pool}.{i}'` and `map_index`; here the
pool name and slot index are kept as separate fields, and the aliased
resource string is recomputed by `resStr` where the script needs it. -/
structure ARecord where
  task : String
  map_index : Option String
  pool : String
  slot_index : Nat
  start : Int
  stop : Int
deriving DecidableEq, Repr

/-- State of the assignment loop: the `slots` dict (total function; pools
absent from the dict are never looked up), the `found` flag (a module-level
variable that is never reset; `false` models "not yet bound"), and the
accumulated `df` rows. -/
structure AState where
  slots : String → List (Option Int)
  found : Bool
  df : List ARecord

/-- The ways the scripts can abort. -/
inductive PyErr
  | assertionError
  | nameError
  | indexError
deriving DecidableEq, Repr

/-- `None if ti['map_index'] == -1 else f'{ti["map_index"]}'`. -/
def mapIdxStr (mi : Int) : Option String := if mi = -1 then none else some (toString mi)

/-- The row the script emits when the instance of start event `e` is placed
on slot `i`: `t_end = t + timedelta(seconds=ti['duration'])`. -/
def recOf (e : Ev) (i : Nat) : ARecord :=
  ⟨e.ti.task_id, mapIdxStr e.ti.map_index, e.ti.pool, i, e.time, e.time + e.ti.duration⟩

/-- Assign the instance of start event `e` to slot `i` of its pool:
`ss[i] = t_end`, then the row is appended to `df`.  (`found` is `True`
afterwards on every path that reaches this code.) -/
def assignSlot (s : AState) (e : Ev) (i : Nat) : AState :=
  { slots := fun q =>
      if q = e.ti.pool then (s.slots e.ti.pool).set i (some (e.time + e.ti.duration))
      else s.slots q
    found := true
    df := s.df ++ [recOf e i] }

/-- One iteration of the assignment loop.  Stop events are skipped.  If the
scan breaks at slot `i`, the instance is assigned there.  If no slot is
available, the script checks the *stale* `found` flag: unbound (`false`)
raises `NameError`; otherwise `i` holds the last scanned index
(`len(ss) - 1`) and the instance is silently assigned there — unless `ss`
is empty, in which case `ss[i]` raises `IndexError`. -/
def stepA (s : AState) (e : Ev) : Except PyErr AState :=
  match e.kind with
  | .stop => .ok s
  | .start =>
    match findAvail (s.slots e.ti.pool) e.time with
    | some i => .ok (assignSlot s e i)
    | none =>
      if s.found then
        if (s.slots e.ti.pool).isEmpty then .error .indexError
        else .ok (assignSlot s e ((s.slots e.ti.pool).length - 1))
      else .error .nameError

/-- Run the assignment loop over an event list. -/
def foldSteps (s : AState) : List Ev → Except PyErr AState
  | [] => .ok s
  | e :: es =>
    match stepA s e with
    | .ok s' => foldSteps s' es
    | .error err => .error err

/-- The `slots` dict built from `pool_sizes`
(`[None] * pool_size`, and `[None] * n == []` for `n <= 0`). -/
def initState (l : List TaskInstance) : AState :=
  ⟨fun p => List.replicate (inferredCapacity l p).toNat none, false, []⟩

/-- The whole assignment pass of a trace. -/
def runAssign (l : List TaskInstance) : Except PyErr AState :=
  foldSteps (initState l) (sortEvents (eventsOf l))

/-- The rows emitted by the assignment pass (in emission order), or `[]` if
the pass aborts. -/
def assignedRecords (l : List TaskInstance) : List ARecord :=
  match runAssign l with
  | .ok s => s.df
  | .error _ => []

/-- `true` iff every start event of the list finds an available slot when the
assignment loop reaches it (i.e. the scan's `break` is taken every time). -/
def cleanRun (s : AState) : List Ev → Bool
  | [] => true
  | e :: es =>
    match e.kind with
    | .stop => cleanRun s es
    | .start =>
      match findAvail (s.slots e.ti.pool) e.time with
      | some i => cleanRun (assignSlot s e i) es
      | none => false

/-- The rebase of one row: `d['start'] -= delta; d['end'] -= delta` with
`delta = t0 - epoch` (epoch is 0 in this integer embedding). -/
def normRec (t0 : Int) (r : ARecord) : ARecord :=
  { r with start := r.start - t0, stop := r.stop - t0 }

/-- The `resource` string of a row: `f'{POOL_ALIAS.get(pool, pool)}.{i}'`. -/
def resStr (aliasMap : String → String) (r : ARecord) : String :=
  aliasMap r.pool ++ "." ++ toString r.slot_index

/-- Lexicographic comparison of character lists by code point. -/
def charLeList : List Char → List Char → Bool
  | [], _ => true
  | _ :: _, [] => false
  | c :: cs, d :: ds => if c = d then charLeList cs ds else decide (c < d)

/-- Python's string `<=`: lexicographic by code point. -/
def strLeB (a b : String) : Bool := charLeList a.data b.data

/-- Key comparison for `df.sort(key=lambda e: e['resource'])`. -/
def leRes (aliasMap : String → String) (a b : ARecord) : Bool :=
  strLeB (resStr aliasMap a) (resStr aliasMap b)

/-- Key comparison for `df.sort(key=lambda e: e['start'], reverse=True)`
(stable descending sort: ties keep their order). -/
def leStartDesc (a b : ARecord) : Bool := decide (b.start ≤ a.start)

/-- The two final display sorts of `plot_gantt_bytask.py`. -/
def sortFinal (aliasMap : String → String) (df : List ARecord) : List ARecord :=
  insSort leStartDesc (insSort (leRes aliasMap) df)

/-- The parse-time pool-weight check: first occurrence of a pool records its
`pool_slots`; every later instance of the pool must report the same value or
the `assert` fails. -/
def checkW (acc : String → Option Int) : List TaskInstance → Bool
  | [] => true
  | ti :: rest =>
    match acc ti.pool with
    | none => checkW (fun q => if q = ti.pool then some ti.pool_slots else acc q) rest
    | some w => decide (w = ti.pool_slots) && checkW acc rest

/-- The whole derivation of `plot_gantt_bytask.py` on an already-parsed
instance list: weight check, capacity sweep, assignment loop, then
`t0 = dates[0][0]` (IndexError on an empty trace), rebase, display sorts. -/
def deriveChart (aliasMap : String → String) (l : List TaskInstance) :
    Except PyErr (List ARecord) :=
  if checkW (fun _ => none) l then
    match runAssign l with
    | .error e => .error e
    | .ok s =>
      match sortEvents (eventsOf l) with
      | [] => .error .indexError
      | e :: _ => .ok (sortFinal aliasMap (s.df.map (normRec e.time)))
  else .error .assertionError

/-- The time the scripts rebase to: the first sorted event's timestamp. -/
def batchT0 (l : List TaskInstance) : Int :=
  match sortEvents (eventsOf l) with
  | [] => 0
  | e :: _ => e.time

/-- Slot `j` exists and is unavailable at time `t`. -/
def notAvailAt (ss : List (Option Int)) (j : Nat) (t : Int) : Bool :=
  match ss[j]? with
  | some o => !availB o t
  | none => false

/-- Two rows on the same `(pool, slot_index)` have disjoint `[start, stop)`
intervals. -/
def noClash (r r' : ARecord) : Prop :=
  r.pool = r'.pool → r.slot_index = r'.slot_index → (r.stop ≤ r'.start ∨ r'.stop ≤ r.start)

/-- All instances of one pool report one `pool_slots` value. -/
def consistentSlots (l : List TaskInstance) : Prop :=
  ∀ a ∈ l, ∀ b ∈ l, a.pool = b.pool → a.pool_slots = b.pool_slots

/-- `t0` is the minimum `start_date` of the trace. -/
def isMinStart (l : List TaskInstance) (t0 : Int) : Bool :=
  l.all (fun ti => decide (t0 ≤ ti.start_date)) && l.any (fun ti => decide (ti.start_date = t0))

/-- The minimum `start` offset over a row list is zero. -/
def startsRebased (rs : List ARecord) : Bool :=
  rs.all (fun r => decide (0 ≤ r.start)) && rs.any (fun r => decide (r.start = 0))

/-- The `(start, stop)` pair of a row. -/
def pairOf (r : ARecord) : Int × Int := (r.start, r.stop)

/-- Decidable equality of derivation results, for concrete evaluations. -/
instance {e a : Type} [DecidableEq e] [DecidableEq a] : DecidableEq (Except e a)
  | .ok x, .ok y =>
    match decEq x y with
    | isTrue h => isTrue (by rw [h])
    | isFalse h => isFalse (fun hc => h (Except.ok.inj hc))
  | .ok _, .error _ => isFalse (fun hc => Except.noConfusion hc)
  | .error _, .ok _ => isFalse (fun hc => Except.noConfusion hc)
  | .error x, .error y =>
    match decEq x y with
    | isTrue h => isTrue (by rw [h])
    | isFalse h => isFalse (fun hc => h (Except.error.inj hc))

/-- Contribution of one event to pool `p`'s counter. -/
def poolDelta (p : String) (e : Ev) : Int := if e.ti.pool = p then evDelta e else 0

/-- Net counter change of pool `p` over an event list. -/
def sumDelta (p : String) (es : List Ev) : Int := (es.map (poolDelta p)).sum

/-- Identity alias table (no `POOL_ALIAS` entries). -/
def idAlias : String → String := fun p => p

/-- Trace where a second instance finds no free slot: instance `a` occupies
the single slot until time 100 (its `duration` exceeds
`end_date - start_date`), instance `b` starts at 5. -/
def tiA1 : TaskInstance := ⟨"a", -1, "p", 1, 0, 1, 100⟩

/-- Second instance of `trace1`; no slot of its pool is available at its
start time 5. -/
def tiB1 : TaskInstance := ⟨"b", -1, "p", 1, 5, 6, 1⟩

/-- The `found`-flag trace: capacity 1, `a` then `b` on pool `p`. -/
def trace1 : List TaskInstance := [tiA1, tiB1]

/-- Two touching instances of pool `q`, listed stop-side first: the start of
`b` at time 5 is processed before the stop of `a` at time 5 by the stable
sort, so the sweep counts them as concurrent. -/
def tiB3 : TaskInstance := ⟨"b", -1, "q", 1, 5, 10, 5⟩

/-- Second instance of `trace3`, interval `[0, 5)`. -/
def tiA3 : TaskInstance := ⟨"a", -1, "q", 1, 0, 5, 5⟩

/-- Tie-order trace `[b, a]` with intervals `[5,10)` and `[0,5)`. -/
def trace3 : List TaskInstance := [tiB3, tiA3]

/-- Overlapping pair on `gpu_pool` (spec scenario 1), intervals `[0,10)` and
`[5,15)`, consistent durations. -/
def tiG1 : TaskInstance := ⟨"g1", -1, "gpu_pool", 1, 0, 10, 10⟩

/-- Second instance of `trace2`, `map_index = 3`. -/
def tiG2 : TaskInstance := ⟨"g2", 3, "gpu_pool", 1, 5, 15, 10⟩

/-- Well-formed two-instance trace with peak concurrency 2. -/
def trace2 : List TaskInstance := [tiG1, tiG2]

/-- Instance whose `duration` (5) differs from `end_date - start_date` (10). -/
def tiD : TaskInstance := ⟨"d", -1, "p", 1, 0, 10, 5⟩

/-- Start event of `tiD`. -/
def evD : Ev := ⟨0, tiD, .start⟩

/-- Assignment state with one free slot for pool `p`. -/
def stateD : AState := ⟨fun _ => [none], false, []⟩

/-- Instance used by the first-fit witness, starting at time 10. -/
def tiW : TaskInstance := ⟨"w", 2, "p", 1, 10, 20, 10⟩

/-- Start event of `tiW`. -/
def evW : Ev := ⟨10, tiW, .start⟩

/-- State whose slot 0 is busy until 20 and slot 1 free. -/
def stateW : AState := ⟨fun _ => [some 20, none], false, []⟩

/-- Instance with `map_index = 3`, used for the batch-index rendering claim. -/
def tiM : TaskInstance := ⟨"m", 3, "p", 1, 0, 9, 9⟩

/-- Start event of `tiM`. -/
def evM : Ev := ⟨0, tiM, .start⟩

/-- Assignment state with one free slot for pool `p` (for `evM`). -/
def stateM : AState := ⟨fun _ => [none], false, []⟩

/-- The row `evM` produces. -/
def rM : ARecord := ⟨"m", some "3", "p", 0, 0, 9⟩

/-- The row `trace1` produces for `b` (silently placed on busy slot 0). -/
def rB1 : ARecord := ⟨"b", none, "p", 0, 5, 6⟩

/-- The row `trace1` produces for `a`. -/
def rA1 : ARecord := ⟨"a", none, "p", 0, 0, 100⟩

/-- The row `evD` produces (its `stop` is `start + duration = 5`, not the
parsed `end_date = 10`). -/
def rD : ARecord := ⟨"d", none, "p", 0, 0, 5⟩

/-- The output of the derivation on `trace2`. -/
def listRes2 : List ARecord :=
  [⟨"g2", some "3", "gpu_pool", 1, 5, 15⟩, ⟨"g1", none, "gpu_pool", 0, 0, 10⟩]

/-- `(start - t0, stop - t0)`: the interval of a row after the rebase. -/
def shiftPair (t0 : Int) (r : ARecord) : Int × Int := (r.start - t0, r.stop - t0)

/-- Every instance of `l` whose pool already has a recorded weight in `acc`
agrees with that weight. -/
def compatW (acc : String → Option Int) (l : List TaskInstance) : Prop :=
  ∀ ti ∈ l, ∀ w, acc ti.pool = some w → ti.pool_slots = w

/-- Timestamp order on events (the sort key). -/
def timeLE (a b : Ev) : Prop := a.time ≤ b.time

/-- The slot lists have the lengths `cap` and every emitted row's slot index
is below its pool's length. -/
def SlotLen (cap : String → Nat) (s : AState) : Prop :=
  (∀ p, (s.slots p).length = cap p) ∧ ∀ r ∈ s.df, r.slot_index < cap r.pool

/-- Every emitted row's slot currently stores some next-available time `v`,
and the row's `stop` is at most `v`, unless the row's slot was since reused,
in which case its `stop` is below every remaining event time. -/
def dfSlotInv (s : AState) (es : List Ev) : Prop :=
  ∀ r ∈ s.df, ∃ v, (s.slots r.pool)[r.slot_index]? = some (some v) ∧
    (r.stop ≤ v ∨ ∀ e ∈ es, r.stop ≤ e.time)

/-! ### Stable sort: permutation and sortedness -/

theorem perm_ordInsert (le : α → α → Bool) (x : α) (l : List α) :
    List.Perm (ordInsert le x l) (x :: l) := by
  induction l with
  | nil => simp [ordInsert]
  | cons y ys ih =>
    cases h : le x y with
    | true => simp [ordInsert, h]
    | false =>
      simp only [ordInsert, h, Bool.false_eq_true, if_false]
      exact (ih.cons y).trans (List.Perm.swap x y ys)

theorem perm_insSort (le : α → α → Bool) (l : List α) : List.Perm (insSort le l) l := by
  induction l with
  | nil => simp [insSort]
  | cons x xs ih => exact (perm_ordInsert le x (insSort le xs)).trans (ih.cons x)

theorem pairwise_ordInsert (le : α → α → Bool)
    (htot : ∀ a b, le a b = false → le b a = true)
    (htrans : ∀ a b c, le a b = true → le b c = true → le a c = true)
    (x : α) (l : List α) (hl : l.Pairwise (fun a b => le a b = true)) :
    (ordInsert le x l).Pairwise (fun a b => le a b = true) := by
  induction l with
  | nil => simp [ordInsert]
  | cons y ys ih =>
    rw [List.pairwise_cons] at hl
    cases h : le x y with
    | true =>
      simp only [ordInsert, h, if_true]
      refine List.Pairwise.cons ?_ (List.Pairwise.cons hl.1 hl.2)
      intro b hb
      rcases List.mem_cons.mp hb with hb | hb
      · exact hb ▸ h
      · exact htrans x y b h (hl.1 b hb)
    | false =>
      simp only [ordInsert, h, Bool.false_eq_true, if_false]
      refine List.Pairwise.cons ?_ (ih hl.2)
      intro b hb
      rcases List.mem_cons.mp ((perm_ordInsert le x ys).mem_iff.mp hb) with hb | hb
      · exact hb ▸ htot x y h
      · exact hl.1 b hb

theorem pairwise_insSort (le : α → α → Bool)
    (htot : ∀ a b, le a b = false → le b a = true)
    (htrans : ∀ a b c, le a b = true → le b c = true → le a c = true)
    (l : List α) : (insSort le l).Pairwise (fun a b => le a b = true) := by
  induction l with
  | nil => simp [insSort]
  | cons x xs ih => exact pairwise_ordInsert le htot htrans x (insSort le xs) ih

theorem sortEvents_perm (es : List Ev) : List.Perm (sortEvents es) es :=
  perm_insSort leTime es

theorem sortEvents_pairwise (es : List Ev) : (sortEvents es).Pairwise timeLE := by
  have h := pairwise_insSort leTime
    (fun a b hab => by simp only [leTime, decide_eq_false_iff_not, decide_eq_true_eq] at *; omega)
    (fun a b c hab hbc => by simp only [leTime, decide_eq_true_eq] at *; omega) es
  exact h.imp (fun hab => by simpa [leTime] using hab)

/-! ### Sweep lemmas -/

theorem sweepFrom_append (st : SweepSt) (A B : List Ev) :
    sweepFrom st (A ++ B) = sweepFrom (sweepFrom st A) B := by
  simp [sweepFrom, List.foldl_append]

theorem sumDelta_cons (p : String) (e : Ev) (es : List Ev) :
    sumDelta p (e :: es) = poolDelta p e + sumDelta p es := by
  simp [sumDelta]

theorem sweepStep_tmp (st : SweepSt) (e : Ev) (p : String) :
    (sweepStep st e).tmp p = st.tmp p + poolDelta p e := by
  by_cases h : p = e.ti.pool
  · subst h; simp [sweepStep, poolDelta]
  · have h' : ¬ e.ti.pool = p := fun hx => h hx.symm
    simp [sweepStep, poolDelta, h, h']

theorem sweepFrom_tmp (es : List Ev) (st : SweepSt) (p : String) :
    (sweepFrom st es).tmp p = st.tmp p + sumDelta p es := by
  induction es generalizing st with
  | nil => simp [sweepFrom, sumDelta]
  | cons e es ih =>
    have : sweepFrom st (e :: es) = sweepFrom (sweepStep st e) es := rfl
    rw [this, ih, sweepStep_tmp, sumDelta_cons]
    ring

theorem sweepStep_sizes_mono (st : SweepSt) (e : Ev) (p : String) :
    st.sizes p ≤ (sweepStep st e).sizes p := by
  by_cases h : p = e.ti.pool
  · subst h; simp [sweepStep]
  · simp [sweepStep, h]

theorem sweepFrom_sizes_mono (es : List Ev) (st : SweepSt) (p : String) :
    st.sizes p ≤ (sweepFrom st es).sizes p := by
  induction es generalizing st with
  | nil => simp [sweepFrom]
  | cons e es ih =>
    have : sweepFrom st (e :: es) = sweepFrom (sweepStep st e) es := rfl
    rw [this]
    exact (sweepStep_sizes_mono st e p).trans (ih (sweepStep st e))

theorem sweepFrom_tmp_le_sizes (es : List Ev) (st : SweepSt) (p : String)
    (h : st.tmp p ≤ st.sizes p) :
    (sweepFrom st es).tmp p ≤ (sweepFrom st es).sizes p := by
  induction es generalizing st with
  | nil => simpa [sweepFrom] using h
  | cons e es ih =>
    have hstep : (sweepStep st e).tmp p ≤ (sweepStep st e).sizes p := by
      by_cases hp : p = e.ti.pool
      · subst hp; simp [sweepStep]
      · simp only [sweepStep]
        simp [hp, h]
    exact ih (sweepStep st e) hstep

theorem sumDelta_le_sweep (A B : List Ev) (p : String) :
    sumDelta p A ≤ (sweepFrom sweep0 (A ++ B)).sizes p := by
  have h1 : (sweepFrom sweep0 A).tmp p = sumDelta p A := by
    rw [sweepFrom_tmp]; simp [sweep0]
  have h2 : (sweepFrom sweep0 A).tmp p ≤ (sweepFrom sweep0 A).sizes p :=
    sweepFrom_tmp_le_sizes A sweep0 p (by simp [sweep0])
  have h3 : (sweepFrom sweep0 A).sizes p ≤ (sweepFrom (sweepFrom sweep0 A) B).sizes p :=
    sweepFrom_sizes_mono B (sweepFrom sweep0 A) p
  rw [sweepFrom_append]
  omega

theorem inferredCapacity_nonneg (l : List TaskInstance) (p : String) :
    0 ≤ inferredCapacity l p := by
  have h := sweepFrom_sizes_mono (sortEvents (eventsOf l)) sweep0 p
  simpa [inferredCapacity, sweep0] using h

/-! ### Sorted initial segments and the demand function -/

theorem filter_eq_takeWhile_of_pairwise (t : Int) (l : List Ev) (hl : l.Pairwise timeLE) :
    l.filter (fun e => decide (e.time ≤ t)) = l.takeWhile (fun e => decide (e.time ≤ t)) := by
  induction l with
  | nil => simp
  | cons x xs ih =>
    rw [List.pairwise_cons] at hl
    cases h : decide (x.time ≤ t) with
    | true => simp [List.filter_cons, List.takeWhile_cons, h, ih hl.2]
    | false =>
      simp only [List.filter_cons, List.takeWhile_cons, h, Bool.false_eq_true, if_false]
      rw [List.filter_eq_nil_iff]
      intro b hb
      have hxb : x.time ≤ b.time := hl.1 b hb
      simp only [decide_eq_false_iff_not, decide_eq_true_eq] at h ⊢
      omega

theorem sumDelta_perm (p : String) {es es' : List Ev} (h : List.Perm es es') :
    sumDelta p es = sumDelta p es' :=
  (h.map (poolDelta p)).sum_eq

theorem eventsOf_cons (ti : TaskInstance) (l : List TaskInstance) :
    eventsOf (ti :: l) =
      (⟨ti.start_date, ti, .start⟩ : Ev) :: (⟨ti.end_date, ti, .stop⟩ : Ev) :: eventsOf l := rfl

theorem demandAt_cons (ti : TaskInstance) (l : List TaskInstance) (p : String) (t : Int) :
    demandAt (ti :: l) p t =
      (if ti.pool = p ∧ ti.start_date ≤ t ∧ t < ti.end_date then ti.pool_slots else 0)
        + demandAt l p t := by
  simp only [demandAt, List.filter_cons]
  by_cases h : ti.pool = p ∧ ti.start_date ≤ t ∧ t < ti.end_date
  · simp [h.1, h.2.1, h.2.2]
  · have : (decide (ti.pool = p) && decide (ti.start_date ≤ t) && decide (t < ti.end_date))
        = false := by
      rcases Decidable.not_and_iff_or_not.mp h with h1 | h2
      · simp [h1]
      · rcases Decidable.not_and_iff_or_not.mp h2 with h3 | h4
        · simp [h3]
        · simp [h4]
    simp [this, h]

theorem sumDelta_filter_events (l : List TaskInstance) (p : String) (t : Int)
    (hse : ∀ ti ∈ l, ti.start_date ≤ ti.end_date) :
    sumDelta p ((eventsOf l).filter (fun e => decide (e.time ≤ t))) = demandAt l p t := by
  induction l with
  | nil => simp [eventsOf, sumDelta, demandAt]
  | cons ti l ih =>
    have hti := hse ti (by simp)
    have ihl := ih (fun x hx => hse x (by simp [hx]))
    rw [eventsOf_cons, demandAt_cons]
    by_cases hs : ti.start_date ≤ t <;> by_cases he : ti.end_date ≤ t
    · -- both events included: contributions cancel, interval does not contain t
      have hnotin : ¬ (ti.pool = p ∧ ti.start_date ≤ t ∧ t < ti.end_date) := by
        rintro ⟨-, -, hx⟩; omega
      rw [if_neg hnotin]
      have hfil : ((⟨ti.start_date, ti, .start⟩ : Ev) :: (⟨ti.end_date, ti, .stop⟩ : Ev) ::
          eventsOf l).filter (fun e => decide (e.time ≤ t))
          = (⟨ti.start_date, ti, .start⟩ : Ev) :: (⟨ti.end_date, ti, .stop⟩ : Ev) ::
            (eventsOf l).filter (fun e => decide (e.time ≤ t)) := by
        simp [List.filter_cons, hs, he]
      rw [hfil, sumDelta_cons, sumDelta_cons, ihl]
      by_cases hp : ti.pool = p
      · simp only [poolDelta, evDelta, hp, if_true, if_pos rfl]
        omega
      · simp only [poolDelta, evDelta, if_neg hp]
        omega
    · -- only the start event is included: instance is running at t
      have hin : ti.pool = p → (ti.pool = p ∧ ti.start_date ≤ t ∧ t < ti.end_date) := by
        intro hp; exact ⟨hp, hs, by omega⟩
      have hfil : ((⟨ti.start_date, ti, .start⟩ : Ev) :: (⟨ti.end_date, ti, .stop⟩ : Ev) ::
          eventsOf l).filter (fun e => decide (e.time ≤ t))
          = (⟨ti.start_date, ti, .start⟩ : Ev) ::
            (eventsOf l).filter (fun e => decide (e.time ≤ t)) := by
        simp [List.filter_cons, hs, he]
      rw [hfil, sumDelta_cons, ihl]
      by_cases hp : ti.pool = p
      · rw [if_pos (hin hp)]
        simp [poolDelta, evDelta, hp]
      · have hnotin : ¬ (ti.pool = p ∧ ti.start_date ≤ t ∧ t < ti.end_date) := by
          rintro ⟨hx, -, -⟩; exact hp hx
        rw [if_neg hnotin]
        simp [poolDelta, if_neg hp]
    · -- end before start contradicts hse
      omega
    · -- neither event included: instance starts after t
      have hnotin : ¬ (ti.pool = p ∧ ti.start_date ≤ t ∧ t < ti.end_date) := by
        rintro ⟨-, hx, -⟩; exact hs hx
      have hfil : ((⟨ti.start_date, ti, .start⟩ : Ev) :: (⟨ti.end_date, ti, .stop⟩ : Ev) ::
          eventsOf l).filter (fun e => decide (e.time ≤ t))
          = (eventsOf l).filter (fun e => decide (e.time ≤ t)) := by
        simp [List.filter_cons, hs, he]
      rw [hfil, ihl, if_neg hnotin]
      omega

theorem demandAt_le_inferredCapacity (l : List TaskInstance) (p : String) (t : Int)
    (hse : ∀ ti ∈ l, ti.start_date ≤ ti.end_date) :
    demandAt l p t ≤ inferredCapacity l p := by
  have hperm : List.Perm (sortEvents (eventsOf l)) (eventsOf l) := sortEvents_perm _
  have h1 : demandAt l p t
      = sumDelta p (((eventsOf l)).filter (fun e => decide (e.time ≤ t))) :=
    (sumDelta_filter_events l p t hse).symm
  have h2 : sumDelta p (((eventsOf l)).filter (fun e => decide (e.time ≤ t)))
      = sumDelta p ((sortEvents (eventsOf l)).filter (fun e => decide (e.time ≤ t))) :=
    sumDelta_perm p (hperm.filter _).symm
  have h3 : (sortEvents (eventsOf l)).filter (fun e => decide (e.time ≤ t))
      = (sortEvents (eventsOf l)).takeWhile (fun e => decide (e.time ≤ t)) :=
    filter_eq_takeWhile_of_pairwise t _ (sortEvents_pairwise (eventsOf l))
  have h4 := sumDelta_le_sweep
    ((sortEvents (eventsOf l)).takeWhile (fun e => decide (e.time ≤ t)))
    ((sortEvents (eventsOf l)).dropWhile (fun e => decide (e.time ≤ t))) p
  rw [List.takeWhile_append_dropWhile] at h4
  rw [h1, h2, h3]
  exact h4

theorem foldr_max_le (xs : List TaskInstance) (f : TaskInstance → Int) (c : Int)
    (h0 : 0 ≤ c) (h : ∀ ti ∈ xs, f ti ≤ c) :
    xs.foldr (fun ti m => max (f ti) m) 0 ≤ c := by
  induction xs with
  | nil => simpa
  | cons x xs ih =>
    simp only [List.foldr_cons, max_le_iff]
    exact ⟨h x (by simp), ih (fun ti hti => h ti (by simp [hti]))⟩

theorem le_foldr_max (xs : List TaskInstance) (f : TaskInstance → Int) (ti : TaskInstance)
    (h : ti ∈ xs) : f ti ≤ xs.foldr (fun ti m => max (f ti) m) 0 := by
  induction xs with
  | nil => simp at h
  | cons x xs ih =>
    rcases List.mem_cons.mp h with h | h
    · subst h; simp
    · simp only [List.foldr_cons]
      exact (ih h).trans (le_max_right _ _)

theorem foldr_max_nonneg (xs : List TaskInstance) (f : TaskInstance → Int) :
    0 ≤ xs.foldr (fun ti m => max (f ti) m) 0 := by
  induction xs with
  | nil => simp
  | cons x xs ih =>
    simp only [List.foldr_cons]
    exact ih.trans (le_max_right _ _)

/-! ### The spec-side peak demand is a true maximum over time -/

theorem sum_filter_mono (l : List TaskInstance) (p1 p2 : TaskInstance → Bool)
    (w : TaskInstance → Int) (himp : ∀ x ∈ l, p1 x = true → p2 x = true)
    (hw : ∀ x ∈ l, 0 ≤ w x) :
    ((l.filter p1).map w).sum ≤ ((l.filter p2).map w).sum := by
  induction l with
  | nil => simp
  | cons x xs ih =>
    have ih' := ih (fun y hy => himp y (by simp [hy])) (fun y hy => hw y (by simp [hy]))
    cases h1 : p1 x with
    | true =>
      have h2 := himp x (by simp) h1
      simp only [List.filter_cons, h1, h2, if_true, List.map_cons, List.sum_cons]
      omega
    | false =>
      cases h2 : p2 x with
      | true =>
        have hx := hw x (by simp)
        simp only [List.filter_cons, h1, h2, Bool.false_eq_true, if_false, if_true,
          List.map_cons, List.sum_cons]
        omega
      | false =>
        simpa only [List.filter_cons, h1, h2, Bool.false_eq_true, if_false] using ih'

theorem exists_max_start (l : List TaskInstance) (h : l ≠ []) :
    ∃ m ∈ l, ∀ x ∈ l, x.start_date ≤ m.start_date := by
  induction l with
  | nil => exact absurd rfl h
  | cons a xs ih =>
    cases xs with
    | nil =>
      refine ⟨a, by simp, ?_⟩
      intro x hx
      rcases List.mem_singleton.mp hx with rfl
      exact le_refl _
    | cons b ys =>
      obtain ⟨m, hm, hmax⟩ := ih (by simp)
      by_cases hc : a.start_date ≤ m.start_date
      · refine ⟨m, List.mem_cons_of_mem a hm, ?_⟩
        intro x hx
        rcases List.mem_cons.mp hx with rfl | hx
        · exact hc
        · exact hmax x hx
      · refine ⟨a, List.mem_cons_self a _, ?_⟩
        intro x hx
        rcases List.mem_cons.mp hx with rfl | hx
        · exact le_refl _
        · exact (hmax x hx).trans (le_of_not_le hc)

theorem demandAt_le_specPeakDemand (l : List TaskInstance) (p : String) (t : Int)
    (hw : ∀ ti ∈ l, 0 ≤ ti.pool_slots) :
    demandAt l p t ≤ specPeakDemand l p := by
  by_cases hF : l.filter (fun ti =>
      decide (ti.pool = p) && decide (ti.start_date ≤ t) && decide (t < ti.end_date)) = []
  · have h0 : demandAt l p t = 0 := by simp [demandAt, hF]
    rw [h0]
    exact foldr_max_nonneg l _
  · obtain ⟨m, hmF, hmax⟩ := exists_max_start _ hF
    obtain ⟨hml, hprm⟩ := List.mem_filter.mp hmF
    have hprm' : (m.pool = p ∧ m.start_date ≤ t) ∧ t < m.end_date := by
      simpa [Bool.and_eq_true, decide_eq_true_eq] using hprm
    have hstep : demandAt l p t ≤ demandAt l p m.start_date := by
      simp only [demandAt]
      refine sum_filter_mono l _ _ _ ?_ hw
      intro x hx hpx
      have hx' : (x.pool = p ∧ x.start_date ≤ t) ∧ t < x.end_date := by
        simpa [Bool.and_eq_true, decide_eq_true_eq] using hpx
      have hxF : x ∈ l.filter (fun ti =>
          decide (ti.pool = p) && decide (ti.start_date ≤ t) && decide (t < ti.end_date)) :=
        List.mem_filter.mpr ⟨hx, hpx⟩
      have hxle : x.start_date ≤ m.start_date := hmax x hxF
      have hmlt : m.start_date < x.end_date := lt_of_le_of_lt hprm'.1.2 hx'.2
      simp [Bool.and_eq_true, decide_eq_true_eq, hx'.1.1, hxle, hmlt]
    exact hstep.trans (le_foldr_max l _ m hml)

/-! ### Claim C3 -/

/-- C3: counterexample.  On `trace3` (instances `[5,10)` then `[0,5)` of pool
`q`, consistent weights 1), the sweep infers capacity 2, while the maximum
over time of the summed `pool_slots` of instances whose half-open interval
contains the time is 1: the stable sort processes the start tied at time 5
before the stop tied at time 5, so touching intervals are counted as
concurrent.  The claimed equality fails. -/
theorem c3_cex : inferredCapacity trace3 "q" = 2 ∧ specPeakDemand trace3 "q" = 1 := by
  constructor
  · decide
  · decide

/-- C3 (amended): for instances with `start_date ≤ end_date`, the inferred
capacity is at least the half-open-interval peak demand of every pool (the
original claim's equality weakened to this lower bound, which is what the
counterexample leaves standing). -/
theorem c3_capacity_bound (l : List TaskInstance) (p : String)
    (hse : ∀ ti ∈ l, ti.start_date ≤ ti.end_date) :
    specPeakDemand l p ≤ inferredCapacity l p := by
  exact foldr_max_le l _ _ (inferredCapacity_nonneg l p)
    (fun ti _ => demandAt_le_inferredCapacity l p ti.start_date hse)

/-- C3: witness.  The amended bound evaluated on the well-formed `trace2`. -/
theorem c3_witness : specPeakDemand trace2 "gpu_pool" ≤ inferredCapacity trace2 "gpu_pool" :=
  c3_capacity_bound trace2 "gpu_pool" (by decide)

/-! ### Error taxonomy of the assignment loop -/

theorem stepA_error_cases (s : AState) (e : Ev) (err : PyErr)
    (h : stepA s e = .error err) : err = .nameError ∨ err = .indexError := by
  obtain ⟨tme, ti, k⟩ := e
  cases k with
  | stop => exact absurd h (by simp [stepA])
  | start =>
    simp only [stepA] at h
    split at h
    · exact absurd h (by simp)
    · split at h
      · split at h
        · injection h with h
          exact Or.inr h.symm
        · exact absurd h (by simp)
      · injection h with h
        exact Or.inl h.symm

theorem foldSteps_ne_assert (es : List Ev) (s : AState) :
    foldSteps s es ≠ .error .assertionError := by
  induction es generalizing s with
  | nil => simp [foldSteps]
  | cons e es ih =>
    intro h
    simp only [foldSteps] at h
    cases hstep : stepA s e with
    | ok s' =>
      rw [hstep] at h
      exact ih s' h
    | error err =>
      rw [hstep] at h
      injection h with h
      subst h
      rcases stepA_error_cases s e _ hstep with h1 | h1 <;> exact PyErr.noConfusion h1

/-! ### The pool-weight check -/

theorem checkW_iff (l : List TaskInstance) : ∀ acc : String → Option Int,
    (checkW acc l = true ↔ (compatW acc l ∧ consistentSlots l)) := by
  induction l with
  | nil =>
    intro acc
    simp [checkW, compatW, consistentSlots]
  | cons ti rest ih =>
    intro acc
    cases hacc : acc ti.pool with
    | none =>
      have hstep : checkW acc (ti :: rest)
          = checkW (fun q => if q = ti.pool then some ti.pool_slots else acc q) rest := by
        simp [checkW, hacc]
      rw [hstep, ih]
      constructor
      · rintro ⟨hcomp, hcons⟩
        constructor
        · intro x hx w hw
          rcases List.mem_cons.mp hx with rfl | hx
          · rw [hacc] at hw
            exact Option.noConfusion hw
          · by_cases hxp : x.pool = ti.pool
            · rw [hxp, hacc] at hw
              exact Option.noConfusion hw
            · exact hcomp x hx w (by simpa [hxp] using hw)
        · intro a ha b hb hab
          rcases List.mem_cons.mp ha with ha1 | ha1
          · rcases List.mem_cons.mp hb with hb1 | hb1
            · rw [ha1, hb1]
            · have hab' : ti.pool = b.pool := by rw [← ha1]; exact hab
              rw [ha1]
              exact (hcomp b hb1 ti.pool_slots (by simp [hab'.symm])).symm
          · rcases List.mem_cons.mp hb with hb1 | hb1
            · have hab' : a.pool = ti.pool := by rw [← hb1]; exact hab
              rw [hb1]
              exact hcomp a ha1 ti.pool_slots (by simp [hab'])
            · exact hcons a ha1 b hb1 hab
      · rintro ⟨hcomp, hcons⟩
        constructor
        · intro x hx w hw
          by_cases hxp : x.pool = ti.pool
          · have hww : ti.pool_slots = w := by
              have hw' : some ti.pool_slots = some w := by simpa [hxp] using hw
              exact Option.some.inj hw'
            have hxt : x.pool_slots = ti.pool_slots :=
              hcons x (List.mem_cons_of_mem _ hx) ti (List.mem_cons_self _ _) hxp
            omega
          · have hw' : acc x.pool = some w := by simpa [hxp] using hw
            exact hcomp x (List.mem_cons_of_mem _ hx) w hw'
        · intro a ha b hb hab
          exact hcons a (List.mem_cons_of_mem _ ha) b (List.mem_cons_of_mem _ hb) hab
    | some w0 =>
      have hstep : checkW acc (ti :: rest)
          = (decide (w0 = ti.pool_slots) && checkW acc rest) := by
        simp [checkW, hacc]
      rw [hstep, Bool.and_eq_true, decide_eq_true_eq, ih]
      constructor
      · rintro ⟨hw0, hcomp, hcons⟩
        constructor
        · intro x hx w hw
          rcases List.mem_cons.mp hx with rfl | hx
          · rw [hacc] at hw
            have hww := Option.some.inj hw
            omega
          · exact hcomp x hx w hw
        · intro a ha b hb hab
          rcases List.mem_cons.mp ha with ha1 | ha1
          · rcases List.mem_cons.mp hb with hb1 | hb1
            · rw [ha1, hb1]
            · have hab' : ti.pool = b.pool := by rw [← ha1]; exact hab
              have hb' := hcomp b hb1 w0 (by rw [← hab']; exact hacc)
              rw [ha1]
              omega
          · rcases List.mem_cons.mp hb with hb1 | hb1
            · have hab' : a.pool = ti.pool := by rw [← hb1]; exact hab
              have ha' := hcomp a ha1 w0 (by rw [hab']; exact hacc)
              rw [hb1]
              omega
            · exact hcons a ha1 b hb1 hab
      · rintro ⟨hcomp, hcons⟩
        refine ⟨?_, ?_, ?_⟩
        · have := hcomp ti (List.mem_cons_self _ _) w0 hacc
          omega
        · intro x hx w hw
          exact hcomp x (List.mem_cons_of_mem _ hx) w hw
        · intro a ha b hb hab
          exact hcons a (List.mem_cons_of_mem _ ha) b (List.mem_cons_of_mem _ hb) hab

/-! ### Claims C7, C10, C1 and the C2/C5 counterexamples -/

/-- C7: the derivation aborts with the pool-weight assertion exactly when two
instances of one pool report different `pool_slots`; in that case the check
fires during parsing, before capacities or rows are produced, and when all
instances of each pool agree the check passes (any later failure is a
different error). -/
theorem c7_pool_weight_check (aliasMap : String → String) (l : List TaskInstance) :
    deriveChart aliasMap l = .error .assertionError ↔ ¬ consistentSlots l := by
  constructor
  · intro h hcons
    have hcheck : checkW (fun _ => none) l = true := by
      rw [checkW_iff]
      exact ⟨fun x hx w hw => Option.noConfusion hw, hcons⟩
    rw [deriveChart, if_pos hcheck] at h
    cases hra : runAssign l with
    | error e2 =>
      simp only [hra] at h
      injection h with h
      exact foldSteps_ne_assert _ _ (h ▸ hra)
    | ok s =>
      cases hes : sortEvents (eventsOf l) with
      | nil => simp [hra, hes] at h
      | cons e rest => simp [hra, hes] at h
  · intro hncons
    have hcheck : checkW (fun _ => none) l = false := by
      cases hc : checkW (fun _ => none) l with
      | false => rfl
      | true => exact absurd ((checkW_iff l _).mp hc).2 hncons
    rw [deriveChart, if_neg (by simp [hcheck])]

/-- C10: on the empty trace the derivation does not return an empty row list:
the assignment loop is vacuous and `t0 = dates[0][0]` fails on the empty
sorted event list (IndexError), so the empty trace is outside the pipeline's
domain. -/
theorem c10_empty_trace (aliasMap : String → String) :
    deriveChart aliasMap ([] : List TaskInstance) = .error .indexError := rfl

/-- C1: evaluation at the failing input.  On `trace1` instance `b` finds no
available slot (slot 0 is busy until 100 at `b`'s start 5), yet the
derivation raises nothing: `found` is still `True` from instance `a`, so `b`
is silently assigned to the last scanned slot 0 and a row is emitted.  The
capacity-exceeded `ValueError` is unreachable. -/
theorem c1_found_flag_eval : deriveChart idAlias trace1 = .ok [rB1, rA1] := by decide

/-- C2: counterexample.  The derivation on `trace1` completes without error,
and the two rows it emits share `(pool, slot_index) = ("p", 0)` while their
half-open intervals `[5, 6)` and `[0, 100)` overlap. -/
theorem c2_cex : deriveChart idAlias trace1 = .ok [rB1, rA1] ∧ ¬ noClash rB1 rA1 := by
  constructor
  · decide
  · intro h
    rcases h rfl rfl with h1 | h1 <;> simp [rB1, rA1] at h1

/-- C5: counterexample.  For `tiD` (`start_date 0`, `end_date 10`,
`duration 5`) the assignment updates the slot's next-available time and the
emitted row's end to `start + duration = 5`, not to the parsed `end_date`
`10` as claimed. -/
theorem c5_cex :
    stepA stateD evD = .ok (assignSlot stateD evD 0) ∧
    (assignSlot stateD evD 0).df = [rD] ∧
    rD.stop ≠ tiD.end_date ∧
    ((assignSlot stateD evD 0).slots "p")[0]? ≠ some (some tiD.end_date) := by
  refine ⟨rfl, rfl, by decide, by decide⟩

/-! ### The slot scan -/

theorem notAvailAt_succ (o : Option Int) (rest : List (Option Int)) (j : Nat) (t : Int) :
    notAvailAt (o :: rest) (j + 1) t = notAvailAt rest j t := by
  simp [notAvailAt]

theorem findAvail_some_lt (ss : List (Option Int)) (t : Int) (i : Nat)
    (h : findAvail ss t = some i) : i < ss.length := by
  induction ss generalizing i with
  | nil => simp [findAvail] at h
  | cons o rest ih =>
    simp only [findAvail] at h
    cases ha : availB o t with
    | true =>
      rw [ha, if_pos rfl] at h
      injection h with h
      simp [← h]
    | false =>
      rw [ha] at h
      simp only [Bool.false_eq_true, if_false] at h
      cases hf : findAvail rest t with
      | none => rw [hf] at h; exact Option.noConfusion h
      | some j =>
        rw [hf] at h
        have h2 : j + 1 = i := Option.some.inj (h : some (j + 1) = some i)
        have := ih j hf
        simp only [List.length_cons]
        omega

theorem findAvail_avail (ss : List (Option Int)) (t : Int) (i : Nat)
    (h : findAvail ss t = some i) : ∃ o, ss[i]? = some o ∧ availB o t = true := by
  induction ss generalizing i with
  | nil => simp [findAvail] at h
  | cons o rest ih =>
    simp only [findAvail] at h
    cases ha : availB o t with
    | true =>
      rw [ha, if_pos rfl] at h
      injection h with h
      exact ⟨o, by simp [← h], ha⟩
    | false =>
      rw [ha] at h
      simp only [Bool.false_eq_true, if_false] at h
      cases hf : findAvail rest t with
      | none => rw [hf] at h; exact Option.noConfusion h
      | some j =>
        rw [hf] at h
        have h2 : j + 1 = i := Option.some.inj (h : some (j + 1) = some i)
        obtain ⟨o', ho', hav⟩ := ih j hf
        refine ⟨o', ?_, hav⟩
        rw [← h2]
        simpa using ho'

theorem findAvail_spec (ss : List (Option Int)) (t : Int) (i : Nat)
    (h : findAvail ss t = some i) : ∀ j, j < i → notAvailAt ss j t = true := by
  induction ss generalizing i with
  | nil => simp [findAvail] at h
  | cons o rest ih =>
    simp only [findAvail] at h
    cases ha : availB o t with
    | true =>
      rw [ha, if_pos rfl] at h
      injection h with h
      intro j hj
      exact absurd hj (by omega)
    | false =>
      rw [ha] at h
      simp only [Bool.false_eq_true, if_false] at h
      cases hf : findAvail rest t with
      | none => rw [hf] at h; exact Option.noConfusion h
      | some k =>
        rw [hf] at h
        have h2 : k + 1 = i := Option.some.inj (h : some (k + 1) = some i)
        intro j hj
        cases j with
        | zero => simp [notAvailAt, ha]
        | succ j' =>
          rw [notAvailAt_succ]
          exact ih k hf j' (by omega)

theorem findAvail_none (ss : List (Option Int)) (t : Int)
    (h : findAvail ss t = none) : ∀ j, j < ss.length → notAvailAt ss j t = true := by
  induction ss with
  | nil => intro j hj; simp at hj
  | cons o rest ih =>
    simp only [findAvail] at h
    cases ha : availB o t with
    | true => rw [ha, if_pos rfl] at h; exact Option.noConfusion h
    | false =>
      rw [ha] at h
      simp only [Bool.false_eq_true, if_false] at h
      cases hf : findAvail rest t with
      | some k => rw [hf] at h; simp at h
      | none =>
        intro j hj
        cases j with
        | zero => simp [notAvailAt, ha]
        | succ j' =>
          rw [notAvailAt_succ]
          exact ih hf j' (by simpa [Nat.succ_lt_succ_iff] using hj)

/-! ### Case analysis of one assignment step -/

theorem stepA_start_eq (s : AState) (tme : Int) (ti : TaskInstance) :
    stepA s ⟨tme, ti, .start⟩ =
      (match findAvail (s.slots ti.pool) tme with
      | some i => .ok (assignSlot s ⟨tme, ti, .start⟩ i)
      | none =>
        if s.found then
          if (s.slots ti.pool).isEmpty then .error .indexError
          else .ok (assignSlot s ⟨tme, ti, .start⟩ ((s.slots ti.pool).length - 1))
        else .error .nameError) := rfl

theorem append_singleton_inj {α : Type} {l : List α} {a b : α}
    (h : l ++ [a] = l ++ [b]) : a = b := by
  induction l with
  | nil => simpa using h
  | cons x xs ih =>
    simp only [List.cons_append, List.cons.injEq] at h
    exact ih h.2

theorem stepA_ok_cases (s : AState) (e : Ev) (s' : AState) (h : stepA s e = .ok s') :
    (e.kind = .stop ∧ s' = s) ∨
    (e.kind = .start ∧ ∃ i, i < (s.slots e.ti.pool).length ∧ s' = assignSlot s e i ∧
      (findAvail (s.slots e.ti.pool) e.time = some i ∨
        (findAvail (s.slots e.ti.pool) e.time = none ∧
          i = (s.slots e.ti.pool).length - 1))) := by
  obtain ⟨tme, ti, k⟩ := e
  cases k with
  | stop =>
    refine Or.inl ⟨rfl, ?_⟩
    have h' : Except.ok (ε := PyErr) s = Except.ok s' := h
    exact (Except.ok.inj h').symm
  | start =>
    refine Or.inr ⟨rfl, ?_⟩
    rw [stepA_start_eq] at h
    cases hf : findAvail (s.slots ti.pool) tme with
    | some i =>
      rw [hf] at h
      exact ⟨i, findAvail_some_lt _ _ _ hf, (Except.ok.inj h).symm, Or.inl rfl⟩
    | none =>
      rw [hf] at h
      cases hfl : s.found with
      | false =>
        rw [hfl] at h
        exact absurd (h : Except.error PyErr.nameError = Except.ok s') (by simp)
      | true =>
        rw [hfl] at h
        cases hemp : (s.slots ti.pool).isEmpty with
        | true =>
          rw [hemp] at h
          exact absurd (h : Except.error PyErr.indexError = Except.ok s') (by simp)
        | false =>
          rw [hemp] at h
          have hlen : 0 < (s.slots ti.pool).length := by
            cases hsl : s.slots ti.pool with
            | nil => rw [hsl] at hemp; exact absurd hemp (by simp)
            | cons a as => simp [hsl]
          have h' : Except.ok (ε := PyErr)
              (assignSlot s ⟨tme, ti, .start⟩ ((s.slots ti.pool).length - 1))
              = Except.ok s' := h
          refine ⟨(s.slots ti.pool).length - 1, ?_, (Except.ok.inj h').symm,
            Or.inr ⟨rfl, rfl⟩⟩
          show (s.slots ti.pool).length - 1 < (s.slots ti.pool).length
          omega

theorem stepA_new_record (s : AState) (e : Ev) (s' : AState) (r : ARecord)
    (h : stepA s e = .ok s') (hdf : s'.df = s.df ++ [r]) :
    e.kind = .start ∧ ∃ i, i < (s.slots e.ti.pool).length ∧ s' = assignSlot s e i ∧
      r = ⟨e.ti.task_id, mapIdxStr e.ti.map_index, e.ti.pool, i, e.time,
        e.time + e.ti.duration⟩ ∧
      (findAvail (s.slots e.ti.pool) e.time = some i ∨
        (findAvail (s.slots e.ti.pool) e.time = none ∧
          i = (s.slots e.ti.pool).length - 1)) := by
  rcases stepA_ok_cases s e s' h with ⟨hk, rfl⟩ | ⟨hk, i, hilen, rfl, hcase⟩
  · exfalso
    have hlen := congrArg List.length hdf
    simp only [List.length_append, List.length_singleton] at hlen
    omega
  · refine ⟨hk, i, hilen, rfl, ?_, hcase⟩
    have hdf' : s.df ++ [(⟨e.ti.task_id, mapIdxStr e.ti.map_index, e.ti.pool, i, e.time,
        e.time + e.ti.duration⟩ : ARecord)] = s.df ++ [r] := hdf
    exact (append_singleton_inj hdf').symm

/-! ### Claims C4, C5 (amended) and C9 -/

/-- C4: whenever a step of the assignment loop emits a row, every slot of the
instance's pool with an index smaller than the chosen `slot_index` was
unavailable at the instance's start time (its stored next-available time is
neither `None` nor `<= start`); this holds on the first-fit path because the
scan breaks at the first available slot, and on the stale-`found` path
because no slot at all was available. -/
theorem c4_first_fit_minimal (s : AState) (e : Ev) (s' : AState) (r : ARecord)
    (h : stepA s e = .ok s') (hdf : s'.df = s.df ++ [r]) :
    ∀ j, j < r.slot_index → notAvailAt (s.slots e.ti.pool) j e.time = true := by
  obtain ⟨-, i, hilen, -, rfl, hcase⟩ := stepA_new_record s e s' r h hdf
  intro j hj
  have hj' : j < i := hj
  rcases hcase with hf | ⟨hf, hi⟩
  · exact findAvail_spec _ _ _ hf j hj'
  · exact findAvail_none _ _ hf j (by omega)

/-- C4: witness.  In `stateW` slot 0 is busy until 20, so `evW` (start 10) is
assigned to slot 1 and slot 0 was indeed unavailable at time 10. -/
theorem c4_witness :
    stepA stateW evW = .ok (assignSlot stateW evW 1) ∧
    notAvailAt (stateW.slots "p") 0 10 = true := by
  refine ⟨rfl, ?_⟩
  exact c4_first_fit_minimal stateW evW (assignSlot stateW evW 1)
    ⟨"w", some "2", "p", 1, 10, 20⟩ rfl rfl 0 (by decide)

/-- C5 (amended): when a step of the assignment loop emits a row, the chosen
slot's next-available time and the row's end are both set to
`start + duration` (seconds), which equals the parsed `end_date` only when
`duration = end_date - start_date`; the original claim said both equal the
parsed `end_date`. -/
theorem c5_slot_update (s : AState) (e : Ev) (s' : AState) (r : ARecord)
    (h : stepA s e = .ok s') (hdf : s'.df = s.df ++ [r]) :
    r.stop = e.time + e.ti.duration ∧
    (s'.slots e.ti.pool)[r.slot_index]? = some (some (e.time + e.ti.duration)) := by
  obtain ⟨-, i, hilen, rfl, rfl, -⟩ := stepA_new_record s e s' r h hdf
  refine ⟨rfl, ?_⟩
  have hslots : (assignSlot s e i).slots e.ti.pool
      = (s.slots e.ti.pool).set i (some (e.time + e.ti.duration)) := by
    simp [assignSlot]
  rw [hslots]
  exact List.getElem?_set_self hilen

/-- C5: witness.  The amended update evaluated on `tiD` (start 0,
duration 5): the row's end and the slot's next-available time are both 5. -/
theorem c5_witness :
    stepA stateD evD = .ok (assignSlot stateD evD 0) ∧
    rD.stop = evD.time + evD.ti.duration ∧
    ((assignSlot stateD evD 0).slots "p")[rD.slot_index]? =
      some (some (evD.time + evD.ti.duration)) := by
  refine ⟨rfl, ?_⟩
  exact c5_slot_update stateD evD (assignSlot stateD evD 0) rD rfl rfl

/-- C9: the batch-index field of the row emitted for a task instance is
`none` exactly when the instance's `map_index` is `-1`, and otherwise is the
decimal string form of `map_index`. -/
theorem c9_batch_index (s : AState) (e : Ev) (s' : AState) (r : ARecord)
    (h : stepA s e = .ok s') (hdf : s'.df = s.df ++ [r]) :
    (r.map_index = none ↔ e.ti.map_index = -1) ∧
    (e.ti.map_index ≠ -1 → r.map_index = some (toString e.ti.map_index)) := by
  obtain ⟨-, i, -, -, rfl, -⟩ := stepA_new_record s e s' r h hdf
  constructor
  · constructor
    · intro hn
      by_contra hne
      simp [mapIdxStr, hne] at hn
    · intro hm
      simp [mapIdxStr, hm]
  · intro hne
    simp [mapIdxStr, hne]

/-- C9: witness.  The instance `tiM` with `map_index = 3` renders `"3"`. -/
theorem c9_witness :
    stepA stateM evM = .ok (assignSlot stateM evM 0) ∧
    (assignSlot stateM evM 0).df = [] ++ [rM] ∧
    rM.map_index = some (toString evM.ti.map_index) := by
  refine ⟨rfl, by decide, ?_⟩
  exact (c9_batch_index stateM evM (assignSlot stateM evM 0) rM rfl (by decide)).2 (by decide)

/-! ### Unpacking a successful derivation -/

theorem sortFinal_perm (aliasMap : String → String) (df : List ARecord) :
    List.Perm (sortFinal aliasMap df) df :=
  (perm_insSort _ _).trans (perm_insSort _ _)

theorem deriveChart_ok_elim (aliasMap : String → String) (l : List TaskInstance)
    (res : List ARecord) (hok : deriveChart aliasMap l = .ok res) :
    ∃ s : AState, runAssign l = .ok s ∧ sortEvents (eventsOf l) ≠ [] ∧
      res = sortFinal aliasMap (s.df.map (normRec (batchT0 l))) := by
  unfold deriveChart at hok
  by_cases hc : checkW (fun _ => none) l = true
  · rw [if_pos hc] at hok
    cases hra : runAssign l with
    | error e2 =>
      rw [hra] at hok
      exact absurd (hok : Except.error e2 = .ok res) (by simp)
    | ok s =>
      rw [hra] at hok
      cases hes : sortEvents (eventsOf l) with
      | nil =>
        rw [hes] at hok
        exact absurd (hok : Except.error PyErr.indexError = .ok res) (by simp)
      | cons e rest =>
        rw [hes] at hok
        have hok' : Except.ok (ε := PyErr)
            (sortFinal aliasMap (s.df.map (normRec e.time))) = .ok res := hok
        refine ⟨s, rfl, by simp [hes], ?_⟩
        have hb : batchT0 l = e.time := by simp [batchT0, hes]
        rw [hb]
        exact (Except.ok.inj hok').symm
  · rw [if_neg (by simpa using hc)] at hok
    exact absurd (hok : Except.error PyErr.assertionError = .ok res) (by simp)

/-! ### Slot indices stay below the slot-list lengths -/

theorem assignSlot_slots_length (s : AState) (e : Ev) (i : Nat) (p : String) :
    ((assignSlot s e i).slots p).length = (s.slots p).length := by
  by_cases hp : p = e.ti.pool
  · subst hp; simp [assignSlot]
  · simp [assignSlot, hp]

theorem foldSteps_slotlen (cap : String → Nat) (es : List Ev) (s s' : AState)
    (h : foldSteps s es = .ok s') (hinv : SlotLen cap s) : SlotLen cap s' := by
  induction es generalizing s with
  | nil =>
    have hs : Except.ok (ε := PyErr) s = .ok s' := h
    rw [← Except.ok.inj hs]
    exact hinv
  | cons e es ih =>
    simp only [foldSteps] at h
    cases hstep : stepA s e with
    | error err =>
      rw [hstep] at h
      exact absurd (h : Except.error err = .ok s') (by simp)
    | ok s1 =>
      rw [hstep] at h
      refine ih s1 h ?_
      rcases stepA_ok_cases s e s1 hstep with ⟨-, rfl⟩ | ⟨-, i, hilen, rfl, -⟩
      · exact hinv
      · constructor
        · intro p
          rw [assignSlot_slots_length]
          exact hinv.1 p
        · intro r hr
          have hmem : r ∈ s.df ++ [(⟨e.ti.task_id, mapIdxStr e.ti.map_index, e.ti.pool, i,
              e.time, e.time + e.ti.duration⟩ : ARecord)] := hr
          rcases List.mem_append.mp hmem with hr1 | hr1
          · exact hinv.2 r hr1
          · have hrr : r = ⟨e.ti.task_id, mapIdxStr e.ti.map_index, e.ti.pool, i,
                e.time, e.time + e.ti.duration⟩ := by simpa using hr1
            subst hrr
            show i < cap e.ti.pool
            rw [← hinv.1]
            exact hilen

theorem initState_slotlen (l : List TaskInstance) :
    SlotLen (fun p => (inferredCapacity l p).toNat) (initState l) := by
  constructor
  · intro p
    simp [initState]
  · intro r hr
    simp [initState] at hr

/-! ### Claim C6 -/

/-- C6: on every trace where the derivation completes without error, every
emitted row's `slot_index` lies in `[0, capacity(pool))` for the capacity the
sweep inferred for that row's pool (the lower bound holds because
`slot_index` is a natural number). -/
theorem c6_slot_index_in_range (aliasMap : String → String) (l : List TaskInstance)
    (res : List ARecord) (hok : deriveChart aliasMap l = .ok res) :
    ∀ r ∈ res, (r.slot_index : Int) < inferredCapacity l r.pool := by
  obtain ⟨s, hra, hne, rfl⟩ := deriveChart_ok_elim aliasMap l res hok
  intro r hr
  have hr2 : r ∈ s.df.map (normRec (batchT0 l)) := (sortFinal_perm _ _).subset hr
  obtain ⟨r0, hr0, rfl⟩ := List.mem_map.mp hr2
  have hra' : foldSteps (initState l) (sortEvents (eventsOf l)) = .ok s := hra
  have hinv := foldSteps_slotlen (fun p => (inferredCapacity l p).toNat) _ _ _ hra'
    (initState_slotlen l)
  have hslot := hinv.2 r0 hr0
  have hpool : (normRec (batchT0 l) r0).pool = r0.pool := rfl
  have hsi : (normRec (batchT0 l) r0).slot_index = r0.slot_index := rfl
  rw [hpool, hsi]
  have hnn := inferredCapacity_nonneg l r0.pool
  simp only at hslot
  omega

/-- C6: witness.  On `trace2` the row of `g2` has slot index 1, below the
inferred capacity 2 of `gpu_pool`. -/
theorem c6_witness :
    deriveChart idAlias trace2 = .ok listRes2 ∧
    (((⟨"g2", some "3", "gpu_pool", 1, 5, 15⟩ : ARecord).slot_index : Int)
      < inferredCapacity trace2 "gpu_pool") := by
  refine ⟨by decide, ?_⟩
  exact c6_slot_index_in_range idAlias trace2 listRes2 (by decide) _ (by decide)

/-! ### Claim C2: no double-booking on a clean run -/

theorem noClash_symm : Symmetric noClash := by
  intro a b h hpool hslot
  rcases h hpool.symm hslot.symm with h1 | h1
  · exact Or.inr h1
  · exact Or.inl h1

theorem noClash_normRec (t0 : Int) {a b : ARecord} (h : noClash a b) :
    noClash (normRec t0 a) (normRec t0 b) := by
  intro hpool hslot
  have hpool' : a.pool = b.pool := hpool
  have hslot' : a.slot_index = b.slot_index := hslot
  rcases h hpool' hslot' with h1 | h1
  · left
    show a.stop - t0 ≤ b.start - t0
    omega
  · right
    show b.stop - t0 ≤ a.start - t0
    omega

theorem cleanRun_pairwise (es : List Ev) (s : AState)
    (hclean : cleanRun s es = true)
    (hsorted : es.Pairwise timeLE)
    (hpw : s.df.Pairwise noClash)
    (hinv : dfSlotInv s es) :
    ∃ s', foldSteps s es = .ok s' ∧ s'.df.Pairwise noClash := by
  induction es generalizing s with
  | nil => exact ⟨s, rfl, hpw⟩
  | cons e es ih =>
    rw [List.pairwise_cons] at hsorted
    obtain ⟨hhead, htail⟩ := hsorted
    obtain ⟨tme, ti, k⟩ := e
    cases k with
    | stop =>
      have hclean' : cleanRun s es = true := hclean
      have hinv' : dfSlotInv s es := by
        intro r hr
        obtain ⟨v, hv, hd⟩ := hinv r hr
        exact ⟨v, hv, hd.imp_right (fun hall e' he' => hall e' (List.mem_cons_of_mem _ he'))⟩
      obtain ⟨s', hfold, hpw'⟩ := ih s hclean' htail hpw hinv'
      exact ⟨s', hfold, hpw'⟩
    | start =>
      cases hf : findAvail (s.slots ti.pool) tme with
      | none =>
        exfalso
        have hc : (match findAvail (s.slots ti.pool) tme with
            | some i => cleanRun (assignSlot s ⟨tme, ti, .start⟩ i) es
            | none => false) = true := hclean
        rw [hf] at hc
        exact absurd hc (by simp)
      | some i =>
        have hclean' : cleanRun (assignSlot s ⟨tme, ti, .start⟩ i) es = true := by
          have hc : (match findAvail (s.slots ti.pool) tme with
              | some j => cleanRun (assignSlot s ⟨tme, ti, .start⟩ j) es
              | none => false) = true := hclean
          rw [hf] at hc
          exact hc
        obtain ⟨o, ho, hav⟩ := findAvail_avail _ _ _ hf
        have hilen := findAvail_some_lt _ _ _ hf
        have hpw1 : (s.df ++ [recOf ⟨tme, ti, .start⟩ i]).Pairwise noClash := by
          rw [List.pairwise_append]
          refine ⟨hpw, by simp, ?_⟩
          intro r hr r' hr'
          have hr'' : r' = recOf ⟨tme, ti, .start⟩ i := by simpa using hr'
          subst hr''
          intro hpool hslot
          have hpool' : r.pool = ti.pool := hpool
          have hslot' : r.slot_index = i := hslot
          obtain ⟨v, hv, hd⟩ := hinv r hr
          left
          show r.stop ≤ tme
          rcases hd with hle | hall
          · have hv' : (s.slots ti.pool)[i]? = some (some v) := by
              rw [← hpool', ← hslot']
              exact hv
            have hov : o = some v := Option.some.inj (ho.symm.trans hv')
            have hvt : v ≤ tme := by
              rw [hov] at hav
              exact of_decide_eq_true hav
            omega
          · exact hall ⟨tme, ti, .start⟩ (List.mem_cons_self _ _)
        have hinv1 : dfSlotInv (assignSlot s ⟨tme, ti, .start⟩ i) es := by
          intro r hr
          have hmem : r ∈ s.df ++ [recOf ⟨tme, ti, .start⟩ i] := hr
          rcases List.mem_append.mp hmem with hr1 | hr1
          · obtain ⟨v, hv, hd⟩ := hinv r hr1
            by_cases hpool : r.pool = ti.pool
            · by_cases hslot : r.slot_index = i
              · refine ⟨tme + ti.duration, ?_, Or.inr ?_⟩
                · have hsl : (assignSlot s ⟨tme, ti, .start⟩ i).slots r.pool
                      = (s.slots ti.pool).set i (some (tme + ti.duration)) := by
                    simp [assignSlot, hpool]
                  rw [hsl, hslot]
                  exact List.getElem?_set_self hilen
                · intro e' he'
                  rcases hd with hle | hall
                  · have hv' : (s.slots ti.pool)[i]? = some (some v) := by
                      rw [← hpool, ← hslot]
                      exact hv
                    have hov : o = some v := Option.some.inj (ho.symm.trans hv')
                    have hvt : v ≤ tme := by
                      rw [hov] at hav
                      exact of_decide_eq_true hav
                    have htme : tme ≤ e'.time := hhead e' he'
                    omega
                  · exact hall e' (List.mem_cons_of_mem _ he')
              · refine ⟨v, ?_, ?_⟩
                · have hsl : (assignSlot s ⟨tme, ti, .start⟩ i).slots r.pool
                      = (s.slots ti.pool).set i (some (tme + ti.duration)) := by
                    simp [assignSlot, hpool]
                  rw [hsl, List.getElem?_set_ne (fun hx => hslot hx.symm), ← hpool]
                  exact hv
                · rcases hd with hle | hall
                  · exact Or.inl hle
                  · exact Or.inr (fun e' he' => hall e' (List.mem_cons_of_mem _ he'))
            · refine ⟨v, ?_, ?_⟩
              · have hsl : (assignSlot s ⟨tme, ti, .start⟩ i).slots r.pool = s.slots r.pool := by
                  simp [assignSlot, hpool]
                rw [hsl]
                exact hv
              · rcases hd with hle | hall
                · exact Or.inl hle
                · exact Or.inr (fun e' he' => hall e' (List.mem_cons_of_mem _ he'))
          · have hrr : r = recOf ⟨tme, ti, .start⟩ i := by simpa using hr1
            subst hrr
            refine ⟨tme + ti.duration, ?_, Or.inl (le_refl _)⟩
            show ((assignSlot s ⟨tme, ti, .start⟩ i).slots ti.pool)[i]?
              = some (some (tme + ti.duration))
            have hsl : (assignSlot s ⟨tme, ti, .start⟩ i).slots ti.pool
                = (s.slots ti.pool).set i (some (tme + ti.duration)) := by
              simp [assignSlot]
            rw [hsl]
            exact List.getElem?_set_self hilen
        obtain ⟨s', hfold, hpw'⟩ :=
          ih (assignSlot s ⟨tme, ti, .start⟩ i) hclean' htail hpw1 hinv1
        refine ⟨s', ?_, hpw'⟩
        have hstep : stepA s ⟨tme, ti, .start⟩ = .ok (assignSlot s ⟨tme, ti, .start⟩ i) := by
          rw [stepA_start_eq, hf]
        simp only [foldSteps]
        rw [hstep]
        exact hfold

/-- C2 (amended): on every trace on which the derivation completes without
error *and* on which every processed instance found an available slot (the
scan's `break` was taken each time — the proviso the counterexample forces,
since the stale-`found` path can silently double-book a slot), no two rows
with the same `(pool, slot_index)` have overlapping `[start, stop)`
intervals. -/
theorem c2_no_double_booking (aliasMap : String → String) (l : List TaskInstance)
    (res : List ARecord)
    (hclean : cleanRun (initState l) (sortEvents (eventsOf l)) = true)
    (hok : deriveChart aliasMap l = .ok res) :
    res.Pairwise noClash := by
  obtain ⟨s, hra, -, rfl⟩ := deriveChart_ok_elim aliasMap l res hok
  have hra' : foldSteps (initState l) (sortEvents (eventsOf l)) = .ok s := hra
  obtain ⟨s2, hfold2, hpw2⟩ := cleanRun_pairwise (sortEvents (eventsOf l)) (initState l)
    hclean (sortEvents_pairwise _) (by simp [initState])
    (by intro r hr; simp [initState] at hr)
  have hs : s2 = s := by
    rw [hra'] at hfold2
    exact (Except.ok.inj hfold2).symm
  subst hs
  have hmap : (s2.df.map (normRec (batchT0 l))).Pairwise noClash :=
    List.Pairwise.map _ (fun a b hab => noClash_normRec _ hab) hpw2
  exact ((sortFinal_perm aliasMap _).pairwise_iff (fun hab => noClash_symm hab)).mpr hmap

/-- C2: witness.  `trace2` is a clean run and its two rows do not clash. -/
theorem c2_witness :
    cleanRun (initState trace2) (sortEvents (eventsOf trace2)) = true ∧
    listRes2.Pairwise noClash := by
  refine ⟨by decide, ?_⟩
  exact c2_no_double_booking idAlias trace2 listRes2 (by decide) (by decide)

/-! ### Provenance of emitted rows -/

theorem foldSteps_df_mono (es : List Ev) (s s' : AState)
    (h : foldSteps s es = .ok s') : ∀ r ∈ s.df, r ∈ s'.df := by
  induction es generalizing s with
  | nil =>
    have hs : s = s' := Except.ok.inj (h : Except.ok (ε := PyErr) s = .ok s')
    subst hs
    exact fun r hr => hr
  | cons e es ih =>
    simp only [foldSteps] at h
    cases hstep : stepA s e with
    | error err =>
      rw [hstep] at h
      exact absurd (h : Except.error err = .ok s') (by simp)
    | ok s1 =>
      rw [hstep] at h
      intro r hr
      refine ih s1 h r ?_
      rcases stepA_ok_cases s e s1 hstep with ⟨-, rfl⟩ | ⟨-, i, -, rfl, -⟩
      · exact hr
      · exact List.mem_append_left _ hr

theorem foldSteps_emits (es : List Ev) (s s' : AState) (h : foldSteps s es = .ok s') :
    ∀ e ∈ es, e.kind = .start → ∃ r ∈ s'.df, r.start = e.time := by
  induction es generalizing s with
  | nil =>
    intro e he
    simp at he
  | cons e0 es ih =>
    simp only [foldSteps] at h
    cases hstep : stepA s e0 with
    | error err =>
      rw [hstep] at h
      exact absurd (h : Except.error err = .ok s') (by simp)
    | ok s1 =>
      rw [hstep] at h
      intro e he hk
      rcases List.mem_cons.mp he with rfl | he'
      · rcases stepA_ok_cases s e s1 hstep with ⟨hk2, -⟩ | ⟨-, i, -, rfl, -⟩
        · rw [hk] at hk2
          exact absurd hk2 (by simp)
        · refine ⟨recOf e i, foldSteps_df_mono es _ _ h (recOf e i) ?_, rfl⟩
          exact List.mem_append_right _ (by simp)
      · exact ih s1 h e he' hk

theorem foldSteps_records (es : List Ev) (s s' : AState) (h : foldSteps s es = .ok s') :
    ∀ r ∈ s'.df, r ∈ s.df ∨ ∃ e ∈ es, e.kind = .start ∧ r.start = e.time := by
  induction es generalizing s with
  | nil =>
    have hs : s = s' := Except.ok.inj (h : Except.ok (ε := PyErr) s = .ok s')
    subst hs
    exact fun r hr => Or.inl hr
  | cons e0 es ih =>
    simp only [foldSteps] at h
    cases hstep : stepA s e0 with
    | error err =>
      rw [hstep] at h
      exact absurd (h : Except.error err = .ok s') (by simp)
    | ok s1 =>
      rw [hstep] at h
      intro r hr
      rcases ih s1 h r hr with hr1 | ⟨e, he, hk, hrt⟩
      · rcases stepA_ok_cases s e0 s1 hstep with ⟨-, rfl⟩ | ⟨hk0, i, -, rfl, -⟩
        · exact Or.inl hr1
        · have hmem : r ∈ s.df ++ [recOf e0 i] := hr1
          rcases List.mem_append.mp hmem with hr2 | hr2
          · exact Or.inl hr2
          · have hrr : r = recOf e0 i := by simpa using hr2
            subst hrr
            exact Or.inr ⟨e0, List.mem_cons_self _ _, hk0, rfl⟩
      · exact Or.inr ⟨e, List.mem_cons_of_mem _ he, hk, hrt⟩

theorem sorted_head_min (e : Ev) (rest : List Ev)
    (h : (e :: rest).Pairwise timeLE) : ∀ x ∈ e :: rest, e.time ≤ x.time := by
  intro x hx
  rcases List.mem_cons.mp hx with rfl | hx
  · exact le_refl _
  · exact (List.pairwise_cons.mp h).1 x hx

theorem startEv_mem_eventsOf (l : List TaskInstance) (ti : TaskInstance) (h : ti ∈ l) :
    (⟨ti.start_date, ti, .start⟩ : Ev) ∈ eventsOf l := by
  induction l with
  | nil => simp at h
  | cons a as ih =>
    rw [eventsOf_cons]
    rcases List.mem_cons.mp h with rfl | h
    · exact List.mem_cons_self _ _
    · exact List.mem_cons_of_mem _ (List.mem_cons_of_mem _ (ih h))

theorem mem_eventsOf (l : List TaskInstance) (e : Ev) (h : e ∈ eventsOf l) :
    ∃ ti ∈ l, (e = ⟨ti.start_date, ti, .start⟩ ∨ e = ⟨ti.end_date, ti, .stop⟩) := by
  induction l with
  | nil => simp [eventsOf] at h
  | cons a as ih =>
    rw [eventsOf_cons] at h
    rcases List.mem_cons.mp h with rfl | h2
    · exact ⟨a, List.mem_cons_self _ _, Or.inl rfl⟩
    · rcases List.mem_cons.mp h2 with rfl | h3
      · exact ⟨a, List.mem_cons_self _ _, Or.inr rfl⟩
      · obtain ⟨ti, hti, hc⟩ := ih h3
        exact ⟨ti, List.mem_cons_of_mem _ hti, hc⟩

/-! ### Claim C8 -/

/-- C8: on every trace of well-formed instances (`start_date ≤ end_date`) on
which the derivation completes, the normalizer subtracts the batch minimum
start from every row: `t0` is the minimum `start_date` of the trace, after
the rebase the minimum `start` offset over the output rows is zero, and the
output `(start, stop)` pairs are exactly the assigned rows' pairs shifted by
the common `t0` (hence durations and the relative order of all start and end
values are unchanged). -/
theorem c8_normalizer (aliasMap : String → String) (l : List TaskInstance)
    (res : List ARecord)
    (hse : ∀ ti ∈ l, ti.start_date ≤ ti.end_date)
    (hok : deriveChart aliasMap l = .ok res) :
    isMinStart l (batchT0 l) = true ∧ startsRebased res = true ∧
    List.Perm (res.map pairOf) ((assignedRecords l).map (shiftPair (batchT0 l))) := by
  obtain ⟨s, hra, hne, rfl⟩ := deriveChart_ok_elim aliasMap l res hok
  have hra' : foldSteps (initState l) (sortEvents (eventsOf l)) = .ok s := hra
  cases hes : sortEvents (eventsOf l) with
  | nil => exact absurd hes hne
  | cons e0 rest =>
    have hb : batchT0 l = e0.time := by simp [batchT0, hes]
    have hsort := sortEvents_pairwise (eventsOf l)
    rw [hes] at hsort
    have hmin : ∀ x ∈ sortEvents (eventsOf l), e0.time ≤ x.time := by
      rw [hes]
      exact sorted_head_min e0 rest hsort
    have hminE : ∀ x ∈ eventsOf l, e0.time ≤ x.time := fun x hx =>
      hmin x ((sortEvents_perm (eventsOf l)).mem_iff.mpr hx)
    have hmin_starts : ∀ ti ∈ l, e0.time ≤ ti.start_date := fun ti hti =>
      hminE _ (startEv_mem_eventsOf l ti hti)
    have hattained : ∃ ti ∈ l, ti.start_date = e0.time := by
      have he0 : e0 ∈ eventsOf l := (sortEvents_perm (eventsOf l)).subset
        (by rw [hes]; exact List.mem_cons_self _ _)
      obtain ⟨ti, hti, hc⟩ := mem_eventsOf l e0 he0
      rcases hc with rfl | rfl
      · exact ⟨ti, hti, rfl⟩
      · refine ⟨ti, hti, ?_⟩
        have h1 : ti.end_date ≤ ti.start_date := hmin_starts ti hti
        have h2 := hse ti hti
        show ti.start_date = ti.end_date
        omega
    refine ⟨?_, ?_, ?_⟩
    · rw [hb]
      simp only [isMinStart, Bool.and_eq_true, List.all_eq_true, List.any_eq_true]
      constructor
      · intro ti hti
        exact decide_eq_true (hmin_starts ti hti)
      · obtain ⟨ti, hti, hts⟩ := hattained
        exact ⟨ti, hti, decide_eq_true hts⟩
    · simp only [startsRebased, Bool.and_eq_true, List.all_eq_true, List.any_eq_true]
      constructor
      · intro r hr
        have hr2 : r ∈ s.df.map (normRec (batchT0 l)) := (sortFinal_perm _ _).subset hr
        obtain ⟨r0, hr0, rfl⟩ := List.mem_map.mp hr2
        rcases foldSteps_records _ _ _ hra' r0 hr0 with h0 | ⟨e, he, -, hrt⟩
        · simp [initState] at h0
        · have hge : e0.time ≤ e.time := hmin e he
          apply decide_eq_true
          show (0 : Int) ≤ r0.start - batchT0 l
          rw [hb]
          omega
      · obtain ⟨ti, hti, hts⟩ := hattained
        have hstart : (⟨ti.start_date, ti, .start⟩ : Ev) ∈ sortEvents (eventsOf l) :=
          (sortEvents_perm _).mem_iff.mpr (startEv_mem_eventsOf l ti hti)
        obtain ⟨r0, hr0, hr0t⟩ := foldSteps_emits _ _ _ hra' _ hstart rfl
        refine ⟨normRec (batchT0 l) r0, ?_, ?_⟩
        · exact (sortFinal_perm aliasMap _).mem_iff.mpr (List.mem_map_of_mem _ hr0)
        · apply decide_eq_true
          show r0.start - batchT0 l = 0
          rw [hb]
          have hr0s : r0.start = ti.start_date := hr0t
          omega
    · have hassigned : assignedRecords l = s.df := by
        unfold assignedRecords
        rw [hra]
      rw [hassigned]
      have hperm := (sortFinal_perm aliasMap (s.df.map (normRec (batchT0 l)))).map pairOf
      have hmm : (s.df.map (normRec (batchT0 l))).map pairOf
          = s.df.map (shiftPair (batchT0 l)) := by
        rw [List.map_map]
        rfl
      rw [hmm] at hperm
      exact hperm

/-- C8: witness.  The rebase facts evaluated on `trace2`. -/
theorem c8_witness :
    isMinStart trace2 (batchT0 trace2) = true ∧ startsRebased listRes2 = true ∧
    List.Perm (listRes2.map pairOf)
      ((assignedRecords trace2).map (shiftPair (batchT0 trace2))) :=
  c8_normalizer idAlias trace2 listRes2 (by decide) (by decide)
